import Mathlib

/-!
Verification development for the latency-benchmark harness `bench_python.py`.

Shallow embedding notes:

* A worker's measured phase (`run_benchmark_method`, lines 46-77) is driven by
  wall-clock time, a random id choice and an opaque query call; the only data
  that flows into the returned tuple is the sequence of per-call latencies in
  nanoseconds.  We therefore embed the measured loop as a fold of the loop
  body (`recordCall`) over that sequence of nanosecond latencies.
* `math.ceil(ctx.timeout)` is embedded as a natural-number parameter
  `timeout_ceil`, so the histogram length `ceil(ctx.timeout) * 100 * 1000 + 1`
  becomes `histLen timeout_ceil`.
* The float sentinel `float('inf')` used for `min_latency` is embedded as
  `⊤ : WithTop Nat`; Python compares the integer `req_time` against the float
  sentinel exactly, and `WithTop Nat` has exactly those comparisons.
  `max_latency` starts at `0.0` and afterwards only ever holds the integer
  `req_time`, so it is embedded as `Nat`.
* The numpy histogram is a `float64` array holding exact small integers
  (`np.zeros`, `+= 1`, `np.add`), embedded as `List Nat`.
* `np.add` on two one-dimensional arrays follows numpy broadcasting: equal
  lengths add elementwise; a length-1 operand is broadcast across the other;
  any other length mismatch raises `ValueError` with no result produced.
  This is embedded by `npAdd` returning `Except`.
* Exceptions propagating out of `agg_results` / `run_sync` are embedded as
  `Except.error`.
-/

/-- Latency value as compared in the source: either an integer number of
10-microsecond units or the `float('inf')` sentinel. -/
abbrev LatVal := WithTop Nat

/-- Histogram length `math.ceil(ctx.timeout) * 100 * 1000 + 1`
(line 47 of `bench_python.py`). -/
def histLen (timeout_ceil : Nat) : Nat :=
  timeout_ceil * 100 * 1000 + 1

/-- `latency_stats[i] += 1` (line 73). -/
def bump (l : List Nat) (i : Nat) : List Nat :=
  l.set i (l.getD i 0 + 1)

/-- The tuple `(nqueries, latency_stats, min_latency, max_latency)` returned
by a worker loop (line 77); also the worker loop's running state. -/
structure RawWorkerResult where
  nqueries : Nat
  latency_stats : List Nat
  min_latency : LatVal
  max_latency : Nat
  deriving DecidableEq, Repr

/-- One iteration of the measured-phase loop body (lines 62-75):
`req_time = (monotonic_ns diff) // 10000`, running max and min updates on the
unclamped value, clamp to `max_req_time = len(latency_stats) - 1`, increment
that bucket, increment `nqueries`. -/
def recordCall (s : RawWorkerResult) (req_ns : Nat) : RawWorkerResult :=
  let req_time := req_ns / 10000
  let max_latency := if req_time > s.max_latency then req_time else s.max_latency
  let min_latency :=
    if (WithTop.some req_time : LatVal) < s.min_latency then WithTop.some req_time
    else s.min_latency
  let max_req_time := s.latency_stats.length - 1
  let idx := if req_time > max_req_time then max_req_time else req_time
  { nqueries := s.nqueries + 1
    latency_stats := bump s.latency_stats idx
    min_latency := min_latency
    max_latency := max_latency }

/-- The worker's initial accumulators (lines 46-49): `nqueries = 0`,
`latency_stats = np.zeros(ceil(timeout) * 100 * 1000 + 1)`,
`min_latency = float('inf')`, `max_latency = 0.0`. -/
def initWorker (timeout_ceil : Nat) : RawWorkerResult :=
  { nqueries := 0
    latency_stats := List.replicate (histLen timeout_ceil) 0
    min_latency := ⊤
    max_latency := 0 }

/-- The measured phase of `run_benchmark_method` (lines 46-77), as a fold of
the loop body over the sequence of observed per-call latencies (nanoseconds). -/
def run_benchmark_method (timeout_ceil : Nat) (req_times_ns : List Nat) :
    RawWorkerResult :=
  req_times_ns.foldl recordCall (initWorker timeout_ceil)

/-- The aggregated `Result` named tuple (lines 26-34).  `latency_stats` is
`Option` because `agg_results` leaves it as Python `None` when given no
worker results (line 131). -/
structure Result where
  benchmark : String
  queryname : String
  nqueries : Nat
  duration : Nat
  min_latency : LatVal
  max_latency : Nat
  latency_stats : Option (List Nat)
  deriving DecidableEq, Repr

instance {ε α : Type} [DecidableEq ε] [DecidableEq α] :
    DecidableEq (Except ε α) := fun x y =>
  match x, y with
  | Except.ok a, Except.ok b =>
    if h : a = b then isTrue (by rw [h])
    else isFalse (by intro hh; cases hh; exact h rfl)
  | Except.ok _, Except.error _ => isFalse (by intro h; cases h)
  | Except.error _, Except.ok _ => isFalse (by intro h; cases h)
  | Except.error e, Except.error f =>
    if h : e = f then isTrue (by rw [h])
    else isFalse (by intro hh; cases hh; exact h rfl)

/-- `np.add` on two one-dimensional arrays, with numpy broadcasting:
equal lengths are summed elementwise; a length-1 operand is broadcast across
the other operand; any other shape mismatch raises `ValueError`. -/
def npAdd (a b : List Nat) : Except String (List Nat) :=
  if a.length = b.length then
    Except.ok (List.zipWith (· + ·) a b)
  else if a.length = 1 then
    Except.ok (b.map (fun x => a.headD 0 + x))
  else if b.length = 1 then
    Except.ok (a.map (fun x => x + b.headD 0))
  else
    Except.error "operands could not be broadcast together"

/-- The running accumulators of the `agg_results` loop (lines 128-131). -/
structure AggState where
  min_latency : LatVal
  max_latency : Nat
  nqueries : Nat
  latency_stats : Option (List Nat)
  deriving DecidableEq, Repr

/-- One iteration of the `agg_results` loop body (lines 132-142). -/
def aggStep (st : AggState) (r : RawWorkerResult) : Except String AggState :=
  let nqueries := st.nqueries + r.nqueries
  let merged : Except String (List Nat) :=
    match st.latency_stats with
    | none => Except.ok r.latency_stats
    | some prev => npAdd prev r.latency_stats
  match merged with
  | Except.error e => Except.error e
  | Except.ok l =>
    let max_latency :=
      if r.max_latency > st.max_latency then r.max_latency else st.max_latency
    let min_latency :=
      if r.min_latency < st.min_latency then r.min_latency else st.min_latency
    Except.ok
      { min_latency := min_latency
        max_latency := max_latency
        nqueries := nqueries
        latency_stats := some l }

/-- The `for result in results` loop of `agg_results` (lines 132-142); an
exception raised by `np.add` propagates immediately. -/
def aggLoop (st : AggState) : List RawWorkerResult → Except String AggState
  | [] => Except.ok st
  | r :: rs =>
    match aggStep st r with
    | Except.ok st2 => aggLoop st2 rs
    | Except.error e => Except.error e

/-- `agg_results` (lines 127-152). -/
def agg_results (results : List RawWorkerResult)
    (benchname queryname : String) (duration : Nat) : Except String Result :=
  match aggLoop { min_latency := ⊤, max_latency := 0, nqueries := 0,
                  latency_stats := none } results with
  | Except.ok st =>
    Except.ok
      { benchmark := benchname
        queryname := queryname
        nqueries := st.nqueries
        duration := duration
        min_latency := st.min_latency
        max_latency := st.max_latency
        latency_stats := st.latency_stats }
  | Except.error e => Except.error e

/-- The per-query loop of `run_sync` (lines 202-208), with the measurement
(`run_benchmark_sync`) abstracted as `bench` and the reporting call
(`print_result`, which performs I/O and may raise) abstracted as `report`.
An exception raised by `report` propagates out of `run_sync`, discarding the
accumulated results. -/
def run_sync (bench : String → Result) (report : Result → Except String Unit) :
    List String → Except String (List Result)
  | [] => Except.ok []
  | q :: qs =>
    let res := bench q
    match report res with
    | Except.error e => Except.error e
    | Except.ok _ =>
      match run_sync bench report qs with
      | Except.ok rest => Except.ok (res :: rest)
      | Except.error e => Except.error e

/-- A concrete measurement outcome, used in concrete scenarios. -/
def exBench : String → Result := fun q =>
  { benchmark := "b", queryname := q, nqueries := 1, duration := 1,
    min_latency := WithTop.some 2, max_latency := 3,
    latency_stats := some [0, 1] }

/-- A reporting collaborator whose print raises on every call. -/
def exReport : Result → Except String Unit := fun _ => Except.error "io"

/-- A reporting collaborator whose print always succeeds. -/
def exReportOk : Result → Except String Unit := fun _ => Except.ok ()

/-- A concrete worker result: one call of 1 unit latency. -/
def exW1 : RawWorkerResult := RawWorkerResult.mk 1 [1] (WithTop.some 1) 1

/-- A concrete worker result: one call of 0 units latency. -/
def exW2 : RawWorkerResult := RawWorkerResult.mk 1 [1] (WithTop.some 0) 0

/-- The aggregate of `exW1` and `exW2` (in either order). -/
def exR : Result := Result.mk "b" "q" 2 5 (WithTop.some 0) 1 (some [2])

/-- The aggregate of `exW1` alone. -/
def exRx : Result := Result.mk "b" "q" 1 5 (WithTop.some 1) 1 (some [1])

/-- The aggregate of `exW2` alone. -/
def exRy : Result := Result.mk "b" "q" 1 5 (WithTop.some 0) 0 (some [1])

/-! ### Basic list lemmas -/

theorem length_bump (l : List Nat) (i : Nat) : (bump l i).length = l.length := by
  simp [bump]

theorem getD_set_self : ∀ (l : List Nat) (i a : Nat), i < l.length →
    (l.set i a).getD i 0 = a := by
  intro l
  induction l with
  | nil => intro i a h; simp at h
  | cons x xs ih =>
    intro i a h
    cases i with
    | zero => simp [List.set, List.getD]
    | succ j =>
      simp only [List.set, List.getD] at *
      exact ih j a (by simpa using h)

theorem getD_set_ne : ∀ (l : List Nat) (i j a : Nat), i ≠ j →
    (l.set i a).getD j 0 = l.getD j 0 := by
  intro l
  induction l with
  | nil => intro i j a _; simp [List.set]
  | cons x xs ih =>
    intro i j a hij
    cases i with
    | zero =>
      cases j with
      | zero => exact absurd rfl hij
      | succ k => simp [List.set, List.getD]
    | succ i2 =>
      cases j with
      | zero => simp [List.set, List.getD]
      | succ k => simpa [List.set, List.getD] using ih i2 k a (by omega)

theorem sum_bump : ∀ (l : List Nat) (i : Nat), i < l.length →
    (bump l i).sum = l.sum + 1 := by
  intro l
  induction l with
  | nil => intro i h; simp at h
  | cons x xs ih =>
    intro i h
    cases i with
    | zero => simp [bump, List.set, List.getD]; omega
    | succ j =>
      have hx : bump (x :: xs) (j + 1) = x :: bump xs j := rfl
      rw [hx, List.sum_cons, ih j (by simpa using h), List.sum_cons]
      omega

theorem getD_bump_self (l : List Nat) (i : Nat) (h : i < l.length) :
    (bump l i).getD i 0 = l.getD i 0 + 1 :=
  getD_set_self l i _ h

theorem getD_bump_ne (l : List Nat) (i j : Nat) (h : i ≠ j) :
    (bump l i).getD j 0 = l.getD j 0 :=
  getD_set_ne l i j _ h

/-! ### Elementwise-sum lemmas -/

theorem zip_length (a b : List Nat) (h : a.length = b.length) :
    (List.zipWith (· + ·) a b).length = a.length := by
  simp [List.length_zipWith, h]

theorem zip_sum : ∀ (a b : List Nat), a.length = b.length →
    (List.zipWith (· + ·) a b).sum = a.sum + b.sum := by
  intro a
  induction a with
  | nil => intro b h; cases b <;> simp_all
  | cons x xs ih =>
    intro b h
    cases b with
    | nil => simp at h
    | cons y ys =>
      simp only [List.zipWith, List.sum_cons]
      rw [ih ys (by simpa using h)]
      omega

theorem zip_getD : ∀ (a b : List Nat), a.length = b.length → ∀ i,
    (List.zipWith (· + ·) a b).getD i 0 = a.getD i 0 + b.getD i 0 := by
  intro a
  induction a with
  | nil => intro b h i; cases b <;> simp_all [List.getD]
  | cons x xs ih =>
    intro b h i
    cases b with
    | nil => simp at h
    | cons y ys =>
      cases i with
      | zero => simp [List.getD]
      | succ j => simpa [List.getD] using ih ys (by simpa using h) j

theorem zip_replicate_zero_left : ∀ (l : List Nat) (L : Nat), l.length = L →
    List.zipWith (· + ·) (List.replicate L 0) l = l := by
  intro l
  induction l with
  | nil => intro L h; subst h; simp
  | cons x xs ih =>
    intro L h
    cases L with
    | zero => simp at h
    | succ M => simpa [List.replicate] using ih M (by simpa using h)

theorem zip_replicate_zero_right : ∀ (l : List Nat) (L : Nat), l.length = L →
    List.zipWith (· + ·) l (List.replicate L 0) = l := by
  intro l
  induction l with
  | nil => intro L h; subst h; simp
  | cons x xs ih =>
    intro L h
    cases L with
    | zero => simp at h
    | succ M => simpa [List.replicate] using ih M (by simpa using h)

theorem zip_assoc : ∀ (a b c : List Nat),
    List.zipWith (· + ·) (List.zipWith (· + ·) a b) c =
      List.zipWith (· + ·) a (List.zipWith (· + ·) b c) := by
  intro a
  induction a with
  | nil => intro b c; simp
  | cons x xs ih =>
    intro b c
    cases b with
    | nil => simp
    | cons y ys =>
      cases c with
      | nil => simp
      | cons z zs => simp [List.zipWith, ih ys zs, Nat.add_assoc]

theorem zip_right_comm : ∀ (l a b : List Nat),
    List.zipWith (· + ·) (List.zipWith (· + ·) l a) b =
      List.zipWith (· + ·) (List.zipWith (· + ·) l b) a := by
  intro l
  induction l with
  | nil => intro a b; simp
  | cons x xs ih =>
    intro a b
    cases a with
    | nil => cases b <;> simp
    | cons y ys =>
      cases b with
      | nil => simp
      | cons z zs =>
        simp only [List.zipWith, List.cons.injEq]
        exact ⟨by omega, ih ys zs⟩

/-! ### Generic fold lemmas -/

theorem foldl_perm {α β : Type} (f : α → β → α)
    (hrc : ∀ a x y, f (f a x) y = f (f a y) x) :
    ∀ {l₁ l₂ : List β}, l₁.Perm l₂ → ∀ a, l₁.foldl f a = l₂.foldl f a := by
  intro l₁ l₂ p
  induction p with
  | nil => intro a; rfl
  | cons x _ ih => intro a; simpa using ih (f a x)
  | swap x y l => intro a; simp only [List.foldl_cons]; rw [hrc]
  | trans _ _ ih₁ ih₂ => intro a; exact (ih₁ a).trans (ih₂ a)

theorem foldl_shift {α β : Type} (f : α → α → α) (g : β → α)
    (hassoc : ∀ a b c, f (f a b) c = f a (f b c)) :
    ∀ (l : List β) (a b : α),
      l.foldl (fun x r => f x (g r)) (f a b) =
        f a (l.foldl (fun x r => f x (g r)) b) := by
  intro l
  induction l with
  | nil => intro a b; rfl
  | cons r rs ih =>
    intro a b
    simp only [List.foldl_cons]
    rw [hassoc, ih]

/-! ### The running-min / running-max updates are `min` / `max` -/

theorem if_lt_eq_min (a b : LatVal) : (if a < b then a else b) = min b a := by
  by_cases h : a < b
  · simp [h, min_eq_right h.le]
  · simp [h, min_eq_left (not_lt.mp h)]

theorem if_gt_eq_max (a b : Nat) : (if a > b then a else b) = max b a := by
  by_cases h : a > b
  · simp [h, max_eq_right h.le]
  · simp [h, max_eq_left (not_lt.mp h)]

/-! ### Behaviour of one `agg_results` loop iteration -/

theorem aggStep_none (mn : LatVal) (mx n : Nat) (r : RawWorkerResult) :
    aggStep { min_latency := mn, max_latency := mx, nqueries := n,
              latency_stats := none } r =
      Except.ok { min_latency := min mn r.min_latency,
                  max_latency := max mx r.max_latency,
                  nqueries := n + r.nqueries,
                  latency_stats := some r.latency_stats } := by
  simp [aggStep, if_lt_eq_min, if_gt_eq_max]

theorem aggStep_some (mn : LatVal) (mx n : Nat) (prev : List Nat)
    (r : RawWorkerResult) (h : prev.length = r.latency_stats.length) :
    aggStep { min_latency := mn, max_latency := mx, nqueries := n,
              latency_stats := some prev } r =
      Except.ok { min_latency := min mn r.min_latency,
                  max_latency := max mx r.max_latency,
                  nqueries := n + r.nqueries,
                  latency_stats :=
                    some (List.zipWith (· + ·) prev r.latency_stats) } := by
  simp [aggStep, npAdd, h, if_lt_eq_min, if_gt_eq_max]

/-- The shape of the accumulated histogram: the elementwise sum of the
workers' histograms, starting from an all-zero array of length `L`. -/
def histAcc (L : Nat) (rs : List RawWorkerResult) : List Nat :=
  rs.foldl (fun acc r => List.zipWith (· + ·) acc r.latency_stats)
    (List.replicate L 0)

theorem aggLoop_some (L : Nat) :
    ∀ (rs : List RawWorkerResult) (mn : LatVal) (mx n : Nat) (l : List Nat),
      l.length = L → (∀ r ∈ rs, r.latency_stats.length = L) →
      aggLoop { min_latency := mn, max_latency := mx, nqueries := n,
                latency_stats := some l } rs =
        Except.ok
          { min_latency := rs.foldl (fun m r => min m r.min_latency) mn,
            max_latency := rs.foldl (fun m r => max m r.max_latency) mx,
            nqueries := rs.foldl (fun m r => m + r.nqueries) n,
            latency_stats := some (rs.foldl
              (fun acc r => List.zipWith (· + ·) acc r.latency_stats) l) } := by
  intro rs
  induction rs with
  | nil => intro mn mx n l _ _; rfl
  | cons r rest ih =>
    intro mn mx n l hl hlen
    have hr : r.latency_stats.length = L := hlen r (by simp)
    have hstep := aggStep_some mn mx n l r (by rw [hl, hr])
    simp only [aggLoop, hstep]
    have hzl : (List.zipWith (· + ·) l r.latency_stats).length = L := by
      rw [zip_length l r.latency_stats (by rw [hl, hr]), hl]
    rw [ih _ _ _ _ hzl (fun r' hr' => hlen r' (by simp [hr']))]
    simp only [List.foldl_cons]

/-- Full characterization of `agg_results` on a non-empty list of worker
results whose histograms all have length `L`: it succeeds, and every field of
the `Result` is the corresponding fold over the input list. -/
theorem agg_results_ok (L : Nat) (rs : List RawWorkerResult)
    (b q : String) (d : Nat) (hne : rs ≠ [])
    (hlen : ∀ r ∈ rs, r.latency_stats.length = L) :
    agg_results rs b q d =
      Except.ok
        { benchmark := b, queryname := q,
          nqueries := rs.foldl (fun m r => m + r.nqueries) 0,
          duration := d,
          min_latency := rs.foldl (fun m r => min m r.min_latency) ⊤,
          max_latency := rs.foldl (fun m r => max m r.max_latency) 0,
          latency_stats := some (histAcc L rs) } := by
  cases rs with
  | nil => exact absurd rfl hne
  | cons r rest =>
    have hr : r.latency_stats.length = L := hlen r (by simp)
    have hrest : ∀ r' ∈ rest, r'.latency_stats.length = L :=
      fun r' hr' => hlen r' (by simp [hr'])
    simp only [agg_results, aggLoop, aggStep_none]
    rw [aggLoop_some L rest _ _ _ _ hr hrest]
    simp only [List.foldl_cons, histAcc]
    rw [zip_replicate_zero_left r.latency_stats L hr]

/-! ### Worker-loop invariants -/

theorem if_gt_eq_clamp (a b : Nat) : (if a > b then b else a) = min a b := by
  by_cases h : a > b
  · simp [h, min_eq_right h.le]
  · simp [h, min_eq_left (not_lt.mp h)]

theorem recordCall_nqueries (s : RawWorkerResult) (t_ns : Nat) :
    (recordCall s t_ns).nqueries = s.nqueries + 1 := rfl

theorem recordCall_stats (s : RawWorkerResult) (t_ns : Nat) :
    (recordCall s t_ns).latency_stats =
      bump s.latency_stats
        (min (t_ns / 10000) (s.latency_stats.length - 1)) := by
  simp [recordCall, if_gt_eq_clamp]

theorem recordCall_max (s : RawWorkerResult) (t_ns : Nat) :
    (recordCall s t_ns).max_latency = max s.max_latency (t_ns / 10000) := by
  simp [recordCall, if_gt_eq_max]

theorem recordCall_min (s : RawWorkerResult) (t_ns : Nat) :
    (recordCall s t_ns).min_latency =
      min s.min_latency (WithTop.some (t_ns / 10000)) := by
  simp [recordCall, if_lt_eq_min]

theorem foldl_record_length : ∀ (reqs : List Nat) (s : RawWorkerResult),
    (reqs.foldl recordCall s).latency_stats.length = s.latency_stats.length := by
  intro reqs
  induction reqs with
  | nil => intro s; rfl
  | cons t ts ih =>
    intro s
    simp only [List.foldl_cons]
    rw [ih (recordCall s t), recordCall_stats, length_bump]

theorem worker_stats_length (tc : Nat) (reqs : List Nat) :
    (run_benchmark_method tc reqs).latency_stats.length = histLen tc := by
  rw [run_benchmark_method, foldl_record_length]
  simp [initWorker]

theorem foldl_record_count : ∀ (reqs : List Nat) (s : RawWorkerResult),
    0 < s.latency_stats.length → s.nqueries = s.latency_stats.sum →
    (reqs.foldl recordCall s).nqueries = (reqs.foldl recordCall s).latency_stats.sum := by
  intro reqs
  induction reqs with
  | nil => intro s _ h; exact h
  | cons t ts ih =>
    intro s hpos h
    simp only [List.foldl_cons]
    have hidx : min (t / 10000) (s.latency_stats.length - 1) <
        s.latency_stats.length := by omega
    refine ih (recordCall s t) ?_ ?_
    · rw [recordCall_stats, length_bump]; exact hpos
    · rw [recordCall_nqueries, recordCall_stats,
        sum_bump s.latency_stats _ hidx, h]

theorem worker_count_eq (tc : Nat) (reqs : List Nat) :
    (run_benchmark_method tc reqs).nqueries =
      (run_benchmark_method tc reqs).latency_stats.sum := by
  refine foldl_record_count reqs (initWorker tc) ?_ ?_
  · simp [initWorker, histLen]
  · simp [initWorker]

/-- The running min/max invariant of a worker state: with no calls recorded
the accumulators still hold their sentinel values; once a call has been
recorded the min is a finite value not exceeding the max. -/
def WInv (s : RawWorkerResult) : Prop :=
  (s.nqueries = 0 → s.min_latency = ⊤ ∧ s.max_latency = 0) ∧
  (0 < s.nqueries →
    s.min_latency ≤ WithTop.some s.max_latency ∧ s.min_latency ≠ ⊤)

theorem recordCall_WInv (s : RawWorkerResult) (t_ns : Nat) (h : WInv s) :
    WInv (recordCall s t_ns) := by
  constructor
  · intro h0
    rw [recordCall_nqueries] at h0
    omega
  · intro _
    rw [recordCall_min, recordCall_max]
    have hne : min s.min_latency (WithTop.some (t_ns / 10000)) ≠ ⊤ := by
      have hle : min s.min_latency (WithTop.some (t_ns / 10000)) ≤
          WithTop.some (t_ns / 10000) := min_le_right _ _
      have hlt : (WithTop.some (t_ns / 10000) : LatVal) < ⊤ := by
        simp [WithTop.some_eq_coe]
      exact (lt_of_le_of_lt hle hlt).ne
    refine ⟨?_, hne⟩
    rcases Nat.eq_zero_or_pos s.nqueries with h0 | hpos
    · obtain ⟨hmin, hmax⟩ := h.1 h0
      rw [hmin, hmax]
      have : min (⊤ : LatVal) (WithTop.some (t_ns / 10000)) =
          WithTop.some (t_ns / 10000) := min_eq_right le_top
      rw [this]
      simp [WithTop.some_eq_coe, WithTop.coe_le_coe]
    · obtain ⟨hle, _⟩ := h.2 hpos
      calc min s.min_latency (WithTop.some (t_ns / 10000)) ≤ s.min_latency :=
            min_le_left _ _
        _ ≤ WithTop.some s.max_latency := hle
        _ ≤ WithTop.some (max s.max_latency (t_ns / 10000)) := by
            simp [WithTop.some_eq_coe, WithTop.coe_le_coe]

theorem foldl_record_WInv : ∀ (reqs : List Nat) (s : RawWorkerResult),
    WInv s → WInv (reqs.foldl recordCall s) := by
  intro reqs
  induction reqs with
  | nil => intro s h; exact h
  | cons t ts ih =>
    intro s h
    exact ih (recordCall s t) (recordCall_WInv s t h)

theorem worker_WInv (tc : Nat) (reqs : List Nat) :
    WInv (run_benchmark_method tc reqs) := by
  refine foldl_record_WInv reqs (initWorker tc) ⟨fun _ => ⟨rfl, rfl⟩, ?_⟩
  intro h
  simp [initWorker] at h

/-! ### Evaluation of the aggregation folds -/

theorem foldl_min_le_init : ∀ (rs : List RawWorkerResult) (a : LatVal),
    rs.foldl (fun m r => min m r.min_latency) a ≤ a := by
  intro rs
  induction rs with
  | nil => intro a; exact le_refl a
  | cons r rest ih =>
    intro a
    simp only [List.foldl_cons]
    exact le_trans (ih (min a r.min_latency)) (min_le_left _ _)

theorem foldl_min_le_mem : ∀ (rs : List RawWorkerResult) (a : LatVal)
    (r : RawWorkerResult), r ∈ rs →
    rs.foldl (fun m r => min m r.min_latency) a ≤ r.min_latency := by
  intro rs
  induction rs with
  | nil => intro a r h; simp at h
  | cons r' rest ih =>
    intro a r h
    simp only [List.foldl_cons]
    rcases List.mem_cons.mp h with h1 | h2
    · subst h1
      exact le_trans (foldl_min_le_init rest _) (min_le_right _ _)
    · exact ih _ r h2

theorem foldl_max_ge_init : ∀ (rs : List RawWorkerResult) (a : Nat),
    a ≤ rs.foldl (fun m r => max m r.max_latency) a := by
  intro rs
  induction rs with
  | nil => intro a; exact le_refl a
  | cons r rest ih =>
    intro a
    simp only [List.foldl_cons]
    exact le_trans (le_max_left a r.max_latency) (ih _)

theorem foldl_max_ge_mem : ∀ (rs : List RawWorkerResult) (a : Nat)
    (r : RawWorkerResult), r ∈ rs →
    r.max_latency ≤ rs.foldl (fun m r => max m r.max_latency) a := by
  intro rs
  induction rs with
  | nil => intro a r h; simp at h
  | cons r' rest ih =>
    intro a r h
    simp only [List.foldl_cons]
    rcases List.mem_cons.mp h with h1 | h2
    · subst h1
      exact le_trans (le_max_right a r.max_latency) (foldl_max_ge_init rest _)
    · exact ih _ r h2

theorem foldl_min_all_top : ∀ (rs : List RawWorkerResult) (a : LatVal),
    (∀ r ∈ rs, r.min_latency = ⊤) →
    rs.foldl (fun m r => min m r.min_latency) a = a := by
  intro rs
  induction rs with
  | nil => intro a _; rfl
  | cons r rest ih =>
    intro a h
    simp only [List.foldl_cons]
    rw [h r (by simp), min_eq_left le_top,
      ih a (fun r' hr' => h r' (by simp [hr']))]

theorem foldl_max_all_zero : ∀ (rs : List RawWorkerResult) (a : Nat),
    (∀ r ∈ rs, r.max_latency = 0) →
    rs.foldl (fun m r => max m r.max_latency) a = a := by
  intro rs
  induction rs with
  | nil => intro a _; rfl
  | cons r rest ih =>
    intro a h
    simp only [List.foldl_cons]
    rw [h r (by simp), max_eq_left (Nat.zero_le a),
      ih a (fun r' hr' => h r' (by simp [hr']))]

theorem foldl_add_eq_sum : ∀ (rs : List RawWorkerResult) (a : Nat),
    rs.foldl (fun m r => m + r.nqueries) a =
      a + (rs.map (fun r => r.nqueries)).sum := by
  intro rs
  induction rs with
  | nil => intro a; simp
  | cons r rest ih =>
    intro a
    simp only [List.foldl_cons, List.map_cons, List.sum_cons]
    rw [ih]
    omega

theorem foldl_min_filter : ∀ (rs : List RawWorkerResult) (a : LatVal),
    (∀ r ∈ rs, r.nqueries = 0 → r.min_latency = ⊤) →
    rs.foldl (fun m r => min m r.min_latency) a =
      (rs.filter (fun r => r.nqueries != 0)).foldl
        (fun m r => min m r.min_latency) a := by
  intro rs
  induction rs with
  | nil => intro a _; rfl
  | cons r rest ih =>
    intro a h
    by_cases h0 : r.nqueries = 0
    · have htop : r.min_latency = ⊤ := h r (by simp) h0
      have : List.filter (fun r => r.nqueries != 0) (r :: rest) =
          List.filter (fun r => r.nqueries != 0) rest := by
        simp [List.filter_cons, h0]
      rw [this, List.foldl_cons, htop, min_eq_left le_top,
        ih a (fun r' hr' => h r' (by simp [hr']))]
    · have : List.filter (fun r => r.nqueries != 0) (r :: rest) =
          r :: List.filter (fun r => r.nqueries != 0) rest := by
        simp [List.filter_cons, h0]
      rw [this, List.foldl_cons, List.foldl_cons,
        ih (min a r.min_latency) (fun r' hr' => h r' (by simp [hr']))]

/-! ### Lengths and sums of the accumulated histogram -/

theorem foldl_zip_length : ∀ (rs : List RawWorkerResult) (l : List Nat),
    (∀ r ∈ rs, r.latency_stats.length = l.length) →
    (rs.foldl (fun acc r => List.zipWith (· + ·) acc r.latency_stats) l).length =
      l.length := by
  intro rs
  induction rs with
  | nil => intro l _; rfl
  | cons r rest ih =>
    intro l h
    have hr : r.latency_stats.length = l.length := h r (by simp)
    have hz : (List.zipWith (· + ·) l r.latency_stats).length = l.length :=
      zip_length l r.latency_stats hr.symm
    simp only [List.foldl_cons]
    rw [ih _ (fun r' hr' => by rw [h r' (by simp [hr']), hz]), hz]

theorem foldl_zip_sum : ∀ (rs : List RawWorkerResult) (l : List Nat),
    (∀ r ∈ rs, r.latency_stats.length = l.length) →
    (rs.foldl (fun acc r => List.zipWith (· + ·) acc r.latency_stats) l).sum =
      l.sum + (rs.map (fun r => r.latency_stats.sum)).sum := by
  intro rs
  induction rs with
  | nil => intro l _; simp
  | cons r rest ih =>
    intro l h
    have hr : r.latency_stats.length = l.length := h r (by simp)
    have hz : (List.zipWith (· + ·) l r.latency_stats).length = l.length :=
      zip_length l r.latency_stats hr.symm
    simp only [List.foldl_cons, List.map_cons, List.sum_cons]
    rw [ih _ (fun r' hr' => by rw [h r' (by simp [hr']), hz]),
      zip_sum l r.latency_stats hr.symm]
    omega

theorem histAcc_length (L : Nat) (rs : List RawWorkerResult)
    (h : ∀ r ∈ rs, r.latency_stats.length = L) : (histAcc L rs).length = L := by
  rw [histAcc, foldl_zip_length rs _ (by simpa using h)]
  simp

theorem histAcc_sum (L : Nat) (rs : List RawWorkerResult)
    (h : ∀ r ∈ rs, r.latency_stats.length = L) :
    (histAcc L rs).sum = (rs.map (fun r => r.latency_stats.sum)).sum := by
  rw [histAcc, foldl_zip_sum rs _ (by simpa using h)]
  simp

/-! ### Splitting the aggregation folds over list append -/

theorem foldl_min_start (ys : List RawWorkerResult) (a : LatVal) :
    ys.foldl (fun m r => min m r.min_latency) a =
      min a (ys.foldl (fun m r => min m r.min_latency) ⊤) := by
  conv_lhs => rw [show a = min a ⊤ from (min_eq_left le_top).symm]
  exact foldl_shift min (fun r => r.min_latency)
    (fun x y z => min_assoc x y z) ys a ⊤

theorem foldl_max_start (ys : List RawWorkerResult) (a : Nat) :
    ys.foldl (fun m r => max m r.max_latency) a =
      max a (ys.foldl (fun m r => max m r.max_latency) 0) := by
  conv_lhs => rw [show a = max a 0 from (max_eq_left (Nat.zero_le a)).symm]
  exact foldl_shift max (fun r => r.max_latency)
    (fun x y z => max_assoc x y z) ys a 0

theorem foldl_min_append (xs ys : List RawWorkerResult) :
    (xs ++ ys).foldl (fun m r => min m r.min_latency) ⊤ =
      min (xs.foldl (fun m r => min m r.min_latency) ⊤)
        (ys.foldl (fun m r => min m r.min_latency) ⊤) := by
  rw [List.foldl_append, foldl_min_start]

theorem foldl_max_append (xs ys : List RawWorkerResult) :
    (xs ++ ys).foldl (fun m r => max m r.max_latency) 0 =
      max (xs.foldl (fun m r => max m r.max_latency) 0)
        (ys.foldl (fun m r => max m r.max_latency) 0) := by
  rw [List.foldl_append, foldl_max_start]

theorem foldl_add_append (xs ys : List RawWorkerResult) :
    (xs ++ ys).foldl (fun m r => m + r.nqueries) 0 =
      (xs.foldl (fun m r => m + r.nqueries) 0) +
        (ys.foldl (fun m r => m + r.nqueries) 0) := by
  rw [foldl_add_eq_sum, foldl_add_eq_sum, foldl_add_eq_sum,
    List.map_append, List.sum_append]
  omega

theorem histAcc_append (L : Nat) (xs ys : List RawWorkerResult)
    (hx : ∀ r ∈ xs, r.latency_stats.length = L) :
    histAcc L (xs ++ ys) =
      List.zipWith (· + ·) (histAcc L xs) (histAcc L ys) := by
  have hlen : (histAcc L xs).length = L := histAcc_length L xs hx
  have h0 : histAcc L (xs ++ ys) =
      ys.foldl (fun acc r => List.zipWith (· + ·) acc r.latency_stats)
        (histAcc L xs) := by
    rw [histAcc, List.foldl_append]; rfl
  rw [h0]
  conv_lhs => rw [show histAcc L xs =
    List.zipWith (· + ·) (histAcc L xs) (List.replicate L 0) from
    (zip_replicate_zero_right _ L hlen).symm]
  exact foldl_shift (List.zipWith (· + ·)) (fun r => r.latency_stats)
    zip_assoc ys (histAcc L xs) (List.replicate L 0)

/-! ### Remaining small helpers -/

theorem foldl_max_filter : ∀ (rs : List RawWorkerResult) (a : Nat),
    (∀ r ∈ rs, r.nqueries = 0 → r.max_latency = 0) →
    rs.foldl (fun m r => max m r.max_latency) a =
      (rs.filter (fun r => r.nqueries != 0)).foldl
        (fun m r => max m r.max_latency) a := by
  intro rs
  induction rs with
  | nil => intro a _; rfl
  | cons r rest ih =>
    intro a h
    by_cases h0 : r.nqueries = 0
    · have hz : r.max_latency = 0 := h r (by simp) h0
      have : List.filter (fun r => r.nqueries != 0) (r :: rest) =
          List.filter (fun r => r.nqueries != 0) rest := by
        simp [List.filter_cons, h0]
      rw [this, List.foldl_cons, hz, max_eq_left (Nat.zero_le a),
        ih a (fun r' hr' => h r' (by simp [hr']))]
    · have : List.filter (fun r => r.nqueries != 0) (r :: rest) =
          r :: List.filter (fun r => r.nqueries != 0) rest := by
        simp [List.filter_cons, h0]
      rw [this, List.foldl_cons, List.foldl_cons,
        ih (max a r.max_latency) (fun r' hr' => h r' (by simp [hr']))]

theorem map_eq_of_mem {α β : Type} (f g : α → β) :
    ∀ (l : List α), (∀ x ∈ l, f x = g x) → l.map f = l.map g := by
  intro l
  induction l with
  | nil => intro _; rfl
  | cons x xs ih =>
    intro h
    simp only [List.map_cons]
    rw [h x (by simp), ih (fun y hy => h y (by simp [hy]))]

theorem nat_sum_zero_all : ∀ (l : List Nat), l.sum = 0 → ∀ x ∈ l, x = 0 := by
  intro l
  induction l with
  | nil => intro _ x hx; simp at hx
  | cons y ys ih =>
    intro h x hx
    rw [List.sum_cons] at h
    rcases List.mem_cons.mp hx with h1 | h2
    · omega
    · exact ih (by omega) x h2

theorem nat_all_zero_sum : ∀ (l : List Nat), (∀ x ∈ l, x = 0) → l.sum = 0 := by
  intro l
  induction l with
  | nil => intro _; rfl
  | cons y ys ih =>
    intro h
    rw [List.sum_cons, h y (by simp), ih (fun x hx => h x (by simp [hx]))]

theorem some_le_some_of_le {a b : Nat} (h : a ≤ b) :
    (WithTop.some a : LatVal) ≤ WithTop.some b := by
  simp [WithTop.some_eq_coe, WithTop.coe_le_coe, h]

theorem max_right_comm_nat (a b c : Nat) :
    max (max a b) c = max (max a c) b := by
  rw [max_assoc, max_comm b c, ← max_assoc]

/-! ### Inversion helpers for aggregated results -/

theorem agg_worker_lengths (tc : Nat) (reqss : List (List Nat)) :
    ∀ w ∈ reqss.map (run_benchmark_method tc),
      w.latency_stats.length = histLen tc := by
  intro w hw
  obtain ⟨reqs', _, rfl⟩ := List.mem_map.mp hw
  exact worker_stats_length tc reqs'

theorem agg_ok_fields (L : Nat) (rs : List RawWorkerResult) (b q : String)
    (d : Nat) (r : Result) (hne : rs ≠ [])
    (hlen : ∀ w ∈ rs, w.latency_stats.length = L)
    (hok : agg_results rs b q d = Except.ok r) :
    r = Result.mk b q (rs.foldl (fun m w => m + w.nqueries) 0) d
      (rs.foldl (fun m w => min m w.min_latency) ⊤)
      (rs.foldl (fun m w => max m w.max_latency) 0)
      (some (histAcc L rs)) := by
  rw [agg_results_ok L rs b q d hne hlen] at hok
  injection hok with h
  exact h.symm

/-! ### The claims -/

/-- Claim C1: a worker loop exits with `nqueries` equal to the sum of its
histogram buckets (every measured call increments exactly one bucket and the
counter by one), and aggregation preserves the property: whenever
`agg_results` applied to worker-loop outputs returns a `Result` carrying a
histogram, the `Result`'s query count equals the sum of that histogram's
buckets. -/
theorem claim_C1_count_eq_hist_sum :
    (∀ (tc : Nat) (reqs : List Nat),
      (run_benchmark_method tc reqs).nqueries =
        (run_benchmark_method tc reqs).latency_stats.sum) ∧
    (∀ (tc : Nat) (reqss : List (List Nat)) (b q : String) (d : Nat)
      (r : Result) (l : List Nat),
      agg_results (reqss.map (run_benchmark_method tc)) b q d = Except.ok r →
      r.latency_stats = some l → r.nqueries = l.sum) := by
  refine ⟨worker_count_eq, ?_⟩
  intro tc reqss b q d r l hok hl
  cases reqss with
  | nil =>
    have h0 : agg_results ([] : List RawWorkerResult) b q d =
        Except.ok (Result.mk b q 0 d ⊤ 0 none) := rfl
    simp only [List.map_nil] at hok
    rw [h0] at hok
    injection hok with h
    rw [← h] at hl
    exact absurd hl (by simp)
  | cons reqs0 rest =>
    have hne : (reqs0 :: rest).map (run_benchmark_method tc) ≠ [] := by simp
    have hlen := agg_worker_lengths tc (reqs0 :: rest)
    have hfields := agg_ok_fields (histLen tc) _ b q d r hne hlen hok
    rw [hfields] at hl ⊢
    simp only [Option.some.injEq] at hl
    rw [← hl]
    show List.foldl (fun (m : Nat) (w : RawWorkerResult) => m + w.nqueries) 0 _ = _
    rw [foldl_add_eq_sum, histAcc_sum _ _ hlen, Nat.zero_add]
    rw [map_eq_of_mem (fun (w : RawWorkerResult) => w.nqueries)
      (fun (w : RawWorkerResult) => w.latency_stats.sum) _
      (by intro w hw
          obtain ⟨reqs', _, rfl⟩ := List.mem_map.mp hw
          exact worker_count_eq tc reqs')]

/-- Claim C1 witness at a concrete run: one worker measuring one call of
12345 ns with timeout ceiling 0. -/
theorem claim_C1_count_eq_hist_sum_witness :
    ((run_benchmark_method 0 [12345]).nqueries =
      (run_benchmark_method 0 [12345]).latency_stats.sum) ∧
    (Result.mk "b" "q" 1 7 (WithTop.some 1) 1 (some [1])).nqueries =
      List.sum [1] :=
  ⟨claim_C1_count_eq_hist_sum.1 0 [12345],
   claim_C1_count_eq_hist_sum.2 0 [[12345]] "b" "q" 7
     (Result.mk "b" "q" 1 7 (WithTop.some 1) 1 (some [1])) [1]
     (by decide) rfl⟩

/-- Claim C4: recording a measured latency of `t_ns` nanoseconds never fails:
on a histogram of length `histLen tc = ceil(timeout) * 100 * 1000 + 1` it
increments exactly the bucket `min (t_ns / 10000) (histLen tc - 1)` (10
microsecond bucket width, saturating into the last bucket), leaves every
other bucket unchanged, keeps the length, and increments the call counter. -/
theorem claim_C4_record_saturates (tc : Nat) (s : RawWorkerResult)
    (t_ns : Nat) (hlen : s.latency_stats.length = histLen tc) :
    (recordCall s t_ns).latency_stats.getD
        (min (t_ns / 10000) (histLen tc - 1)) 0 =
      s.latency_stats.getD (min (t_ns / 10000) (histLen tc - 1)) 0 + 1 ∧
    (∀ j, j ≠ min (t_ns / 10000) (histLen tc - 1) →
      (recordCall s t_ns).latency_stats.getD j 0 =
        s.latency_stats.getD j 0) ∧
    (recordCall s t_ns).latency_stats.length = histLen tc ∧
    (recordCall s t_ns).nqueries = s.nqueries + 1 := by
  have hpos : 0 < histLen tc := by simp [histLen]
  have hidx : min (t_ns / 10000) (histLen tc - 1) < histLen tc :=
    lt_of_le_of_lt (min_le_right _ _) (Nat.sub_lt hpos Nat.one_pos)
  have hstats := recordCall_stats s t_ns
  rw [hlen] at hstats
  refine ⟨?_, ?_, ?_, recordCall_nqueries s t_ns⟩
  · rw [hstats]
    exact getD_bump_self s.latency_stats _ (by rw [hlen]; exact hidx)
  · intro j hj
    rw [hstats]
    exact getD_bump_ne s.latency_stats _ j (fun he => hj he.symm)
  · rw [hstats, length_bump, hlen]

/-- Claim C4 witness: latency 123456 ns on a length-1 histogram (timeout
ceiling 0) lands in bucket 0, the overflow bucket. -/
theorem claim_C4_record_saturates_witness :
    (recordCall (RawWorkerResult.mk 2 [5] ⊤ 0) 123456).latency_stats.getD 0 0 =
      5 + 1 ∧
    (recordCall (RawWorkerResult.mk 2 [5] ⊤ 0) 123456).nqueries = 2 + 1 :=
  ⟨(claim_C4_record_saturates 0 (RawWorkerResult.mk 2 [5] ⊤ 0) 123456
      (by decide)).1,
   (claim_C4_record_saturates 0 (RawWorkerResult.mk 2 [5] ⊤ 0) 123456
      (by decide)).2.2.2⟩

/-- Claim C9: for a call whose latency reaches or exceeds the histogram
ceiling, the worker records the true unclamped `req_time = t_ns / 10000` as
`max_latency` (which exceeds the highest bucket index whenever the latency
strictly exceeds the ceiling) while the histogram increment for the same call
is clamped into the last bucket. -/
theorem claim_C9_unclamped_max (tc : Nat) (s : RawWorkerResult) (t_ns : Nat)
    (hlen : s.latency_stats.length = histLen tc)
    (hceil : histLen tc - 1 ≤ t_ns / 10000)
    (hmax : s.max_latency ≤ t_ns / 10000) :
    (recordCall s t_ns).max_latency = t_ns / 10000 ∧
    (recordCall s t_ns).latency_stats =
      bump s.latency_stats (histLen tc - 1) ∧
    (histLen tc - 1 < t_ns / 10000 →
      histLen tc - 1 < (recordCall s t_ns).max_latency) := by
  have h1 : (recordCall s t_ns).max_latency = t_ns / 10000 := by
    rw [recordCall_max, max_eq_right hmax]
  refine ⟨h1, ?_, ?_⟩
  · rw [recordCall_stats, hlen, min_eq_right hceil]
  · intro h2
    rw [h1]
    exact h2

/-- Claim C9 witness: a 23456 ns call on a length-1 histogram (ceiling
bucket index 0) reports unclamped `max_latency = 2` while incrementing
bucket 0. -/
theorem claim_C9_unclamped_max_witness :
    (recordCall (initWorker 0) 23456).max_latency = 2 ∧
    histLen 0 - 1 < (recordCall (initWorker 0) 23456).max_latency :=
  ⟨(claim_C9_unclamped_max 0 (initWorker 0) 23456 (by decide) (by decide)
      (by decide)).1,
   (claim_C9_unclamped_max 0 (initWorker 0) 23456 (by decide) (by decide)
      (by decide)).2.2 (by decide)⟩

/-- Claim C10: on the empty collection of worker results `agg_results`
returns normally with query count 0, the infinite min sentinel, max 0, and
no histogram (`none`, Python `None`) rather than an all-zero bucket array. -/
theorem claim_C10_empty_aggregation (b q : String) (d : Nat) :
    agg_results [] b q d = Except.ok (Result.mk b q 0 d ⊤ 0 none) := rfl

/-- Claim C5 counterexample: merging histograms of differing lengths 1 and 2
does NOT fail — numpy broadcasts the length-1 operand and returns a summed
histogram, so "merging two histograms of differing lengths fails" is false
as a universal statement. -/
theorem claim_C5_counterexample :
    ([5] : List Nat).length ≠ ([3, 4] : List Nat).length ∧
    npAdd [5] [3, 4] = Except.ok [8, 9] := by decide

/-- Claim C5 (amended): merging two histograms of identical length `L`
returns the elementwise sums (length `L`, bucket `i` is the sum of the
inputs' bucket `i`); merging differing lengths where neither operand has
length 1 fails with numpy's broadcast mismatch (the DimensionMismatch
condition) with no partial merge — in particular declared lengths 100 and
101 fail; a length-1 operand is instead broadcast and the merge succeeds. -/
theorem claim_C5_merge_behaviour (a b : List Nat) :
    (a.length = b.length →
      npAdd a b = Except.ok (List.zipWith (· + ·) a b) ∧
      (List.zipWith (· + ·) a b).length = a.length ∧
      (∀ i, (List.zipWith (· + ·) a b).getD i 0 =
        a.getD i 0 + b.getD i 0)) ∧
    (a.length ≠ b.length → a.length ≠ 1 → b.length ≠ 1 →
      npAdd a b = Except.error "operands could not be broadcast together") := by
  constructor
  · intro h
    refine ⟨by simp [npAdd, h], zip_length a b h, zip_getD a b h⟩
  · intro h h1 h2
    simp [npAdd, h, h1, h2]

/-- Claim C5 witness: lengths 100 and 101 fail with the broadcast error; an
equal-length merge returns the elementwise sums. -/
theorem claim_C5_merge_behaviour_witness :
    npAdd (List.replicate 100 1) (List.replicate 101 2) =
      Except.error "operands could not be broadcast together" ∧
    npAdd [1, 2] [3, 4] = Except.ok (List.zipWith (· + ·) [1, 2] [3, 4]) :=
  ⟨(claim_C5_merge_behaviour (List.replicate 100 1)
      (List.replicate 101 2)).2 (by decide) (by decide) (by decide),
   ((claim_C5_merge_behaviour [1, 2] [3, 4]).1 (by decide)).1⟩

/-- Claim C6 counterexample: the aggregator does NOT fail on the empty
collection — instead of signalling a NoResults condition it returns a
`Result` with zero count, sentinel min, zero max and no histogram. -/
theorem claim_C6_counterexample :
    agg_results [] "bench" "query" 3 =
      Except.ok (Result.mk "bench" "query" 0 3 ⊤ 0 none) := by decide

/-- Claim C6 (amended): the aggregator never signals a NoResults condition:
on the empty collection it returns normally with the sentinel `Result`
(count 0, infinite min, max 0, histogram `None`), and on any collection
whose histograms all share one length it also succeeds — its only failure
mode is a histogram length mismatch inside `np.add`. -/
theorem claim_C6_no_empty_failure :
    (∀ (b q : String) (d : Nat),
      agg_results [] b q d = Except.ok (Result.mk b q 0 d ⊤ 0 none)) ∧
    (∀ (L : Nat) (rs : List RawWorkerResult) (b q : String) (d : Nat),
      (∀ w ∈ rs, w.latency_stats.length = L) →
      ∃ r : Result, agg_results rs b q d = Except.ok r) := by
  refine ⟨fun b q d => rfl, ?_⟩
  intro L rs b q d hlen
  cases rs with
  | nil => exact ⟨Result.mk b q 0 d ⊤ 0 none, rfl⟩
  | cons r0 rest =>
    exact ⟨_, agg_results_ok L (r0 :: rest) b q d (by simp) hlen⟩

/-- Claim C6 witness: a singleton collection with a length-1 histogram
aggregates successfully. -/
theorem claim_C6_no_empty_failure_witness :
    ∃ r : Result,
      agg_results [RawWorkerResult.mk 1 [1] (WithTop.some 1) 1] "b" "q" 2 =
        Except.ok r :=
  claim_C6_no_empty_failure.2 1 [RawWorkerResult.mk 1 [1] (WithTop.some 1) 1]
    "b" "q" 2 (by decide)

/-- Claim C8 counterexample: with a reporting collaborator that raises, the
runner does NOT proceed to the next query name — the failure propagates out
of `run_sync` and no list of results is produced. -/
theorem claim_C8_counterexample :
    run_sync exBench exReport ["a", "b"] = Except.error "io" ∧
    run_sync exBench exReport ["a", "b"] ≠
      Except.ok [exBench "a", exBench "b"] := by decide

/-- Claim C8 (amended): a reporting failure is fatal to the run: if the
report of the first query's `Result` raises, `run_sync` propagates that
error (the remaining query names are never processed and accumulated results
are discarded); only when every report call succeeds does the runner return
one `Result` per requested query name, in order. -/
theorem claim_C8_report_failure_aborts :
    (∀ (bench : String → Result) (report : Result → Except String Unit)
      (q : String) (qs : List String) (e : String),
      report (bench q) = Except.error e →
      run_sync bench report (q :: qs) = Except.error e) ∧
    (∀ (bench : String → Result) (report : Result → Except String Unit)
      (qs : List String),
      (∀ q ∈ qs, report (bench q) = Except.ok ()) →
      run_sync bench report qs = Except.ok (qs.map bench)) := by
  constructor
  · intro bench report q qs e h
    simp [run_sync, h]
  · intro bench report qs h
    induction qs with
    | nil => rfl
    | cons q rest ih =>
      have hq : report (bench q) = Except.ok () := h q (by simp)
      simp [run_sync, hq, ih (fun q' hq' => h q' (by simp [hq']))]

/-- Claim C8 witness: the failing-report case aborts with the report's
error; the succeeding-report case yields one result per query. -/
theorem claim_C8_report_failure_aborts_witness :
    run_sync exBench exReport ["q1", "q2"] = Except.error "io" ∧
    run_sync exBench exReportOk ["q1"] = Except.ok [exBench "q1"] :=
  ⟨claim_C8_report_failure_aborts.1 exBench exReport "q1" ["q2"] "io" rfl,
   by
    have h := claim_C8_report_failure_aborts.2 exBench exReportOk ["q1"]
      (fun q _ => rfl)
    simpa using h⟩

/-- Claim C3: aggregating a non-empty collection of worker-loop outputs
yields a `Result` whose `nqueries` is the sum of the workers' counts, whose
`max_latency` is the maximum of all workers' `max_latency` values, and whose
`min_latency` (resp. `max_latency`) equals the fold over exactly those
workers that recorded at least one call — a zero-call worker (sentinel min,
zero max) contributes nothing to the global min or max. -/
theorem claim_C3_agg_fields (tc : Nat) (reqss : List (List Nat))
    (b q : String) (d : Nat) (hne : reqss ≠ []) :
    ∃ r : Result,
      agg_results (reqss.map (run_benchmark_method tc)) b q d =
        Except.ok r ∧
      r.nqueries =
        ((reqss.map (run_benchmark_method tc)).map
          (fun w => w.nqueries)).sum ∧
      r.max_latency = (reqss.map (run_benchmark_method tc)).foldl
        (fun m w => max m w.max_latency) 0 ∧
      r.min_latency = ((reqss.map (run_benchmark_method tc)).filter
          (fun w => w.nqueries != 0)).foldl
        (fun m w => min m w.min_latency) ⊤ ∧
      r.max_latency = ((reqss.map (run_benchmark_method tc)).filter
          (fun w => w.nqueries != 0)).foldl
        (fun m w => max m w.max_latency) 0 := by
  cases reqss with
  | nil => exact absurd rfl hne
  | cons reqs0 rest =>
    have hlen := agg_worker_lengths tc (reqs0 :: rest)
    have hmin0 : ∀ w ∈ (reqs0 :: rest).map (run_benchmark_method tc),
        w.nqueries = 0 → w.min_latency = ⊤ := by
      intro w hw h0
      obtain ⟨reqs', _, rfl⟩ := List.mem_map.mp hw
      exact ((worker_WInv tc reqs').1 h0).1
    have hmax0 : ∀ w ∈ (reqs0 :: rest).map (run_benchmark_method tc),
        w.nqueries = 0 → w.max_latency = 0 := by
      intro w hw h0
      obtain ⟨reqs', _, rfl⟩ := List.mem_map.mp hw
      exact ((worker_WInv tc reqs').1 h0).2
    refine ⟨_, agg_results_ok (histLen tc) _ b q d (by simp) hlen,
      ?_, rfl, ?_, ?_⟩
    · show List.foldl (fun (m : Nat) (w : RawWorkerResult) =>
        m + w.nqueries) 0 _ = _
      rw [foldl_add_eq_sum, Nat.zero_add]
    · exact foldl_min_filter _ ⊤ hmin0
    · exact foldl_max_filter _ 0 hmax0

/-- Claim C3 witness: two workers, one with a single 12345 ns call and one
that recorded no calls; the zero-call worker is ignored by the min. -/
theorem claim_C3_agg_fields_witness :
    ∃ r : Result,
      agg_results ([[12345], []].map (run_benchmark_method 0)) "b" "q" 5 =
        Except.ok r ∧
      r.nqueries =
        (([[12345], []].map (run_benchmark_method 0)).map
          (fun w => w.nqueries)).sum ∧
      r.max_latency = ([[12345], []].map (run_benchmark_method 0)).foldl
        (fun m w => max m w.max_latency) 0 ∧
      r.min_latency = (([[12345], []].map (run_benchmark_method 0)).filter
          (fun w => w.nqueries != 0)).foldl
        (fun m w => min m w.min_latency) ⊤ ∧
      r.max_latency = (([[12345], []].map (run_benchmark_method 0)).filter
          (fun w => w.nqueries != 0)).foldl
        (fun m w => max m w.max_latency) 0 :=
  claim_C3_agg_fields 0 [[12345], []] "b" "q" 5 (by decide)

/-- Claim C7: for every worker-loop output, and for every `Result` that
`agg_results` produces from worker-loop outputs: if the query count is
positive then `min_latency ≤ max_latency`, and if the query count is zero
then `min_latency` is the infinite sentinel and `max_latency` is zero. -/
theorem claim_C7_minmax_sentinels :
    (∀ (tc : Nat) (reqs : List Nat),
      (0 < (run_benchmark_method tc reqs).nqueries →
        (run_benchmark_method tc reqs).min_latency ≤
          WithTop.some (run_benchmark_method tc reqs).max_latency) ∧
      ((run_benchmark_method tc reqs).nqueries = 0 →
        (run_benchmark_method tc reqs).min_latency = ⊤ ∧
        (run_benchmark_method tc reqs).max_latency = 0)) ∧
    (∀ (tc : Nat) (reqss : List (List Nat)) (b q : String) (d : Nat)
      (r : Result),
      agg_results (reqss.map (run_benchmark_method tc)) b q d =
        Except.ok r →
      (0 < r.nqueries → r.min_latency ≤ WithTop.some r.max_latency) ∧
      (r.nqueries = 0 → r.min_latency = ⊤ ∧ r.max_latency = 0)) := by
  constructor
  · intro tc reqs
    exact ⟨fun h => ((worker_WInv tc reqs).2 h).1, (worker_WInv tc reqs).1⟩
  · intro tc reqss b q d r hok
    cases reqss with
    | nil =>
      have h0 : agg_results ([] : List RawWorkerResult) b q d =
          Except.ok (Result.mk b q 0 d ⊤ 0 none) := rfl
      simp only [List.map_nil] at hok
      rw [h0] at hok
      injection hok with h
      rw [← h]
      exact ⟨fun hpos => absurd hpos (by simp), fun _ => ⟨rfl, rfl⟩⟩
    | cons reqs0 rest =>
      have hlen := agg_worker_lengths tc (reqs0 :: rest)
      have hfields := agg_ok_fields (histLen tc) _ b q d r (by simp)
        hlen hok
      rw [hfields]
      constructor
      · intro hpos
        have hsum : (0 : Nat) <
            (((reqs0 :: rest).map (run_benchmark_method tc)).map
              (fun w => w.nqueries)).sum := by
          have : ((reqs0 :: rest).map (run_benchmark_method tc)).foldl
              (fun m w => m + w.nqueries) 0 =
              (((reqs0 :: rest).map (run_benchmark_method tc)).map
                (fun w => w.nqueries)).sum := by
            rw [foldl_add_eq_sum, Nat.zero_add]
          rw [← this]
          exact hpos
        have hex : ∃ w ∈ (reqs0 :: rest).map (run_benchmark_method tc),
            w.nqueries ≠ 0 := by
          by_contra hall
          push_neg at hall
          have : (((reqs0 :: rest).map (run_benchmark_method tc)).map
              (fun w => w.nqueries)).sum = 0 := by
            refine nat_all_zero_sum _ ?_
            intro x hx
            obtain ⟨w, hw, rfl⟩ := List.mem_map.mp hx
            exact hall w hw
          omega
        obtain ⟨w, hw, hwn⟩ := hex
        have hwworker := hw
        obtain ⟨reqs', _, hweq⟩ := List.mem_map.mp hwworker
        have hwinv : w.min_latency ≤ WithTop.some w.max_latency := by
          rw [← hweq]
          exact ((worker_WInv tc reqs').2 (by
            rw [hweq]
            exact Nat.pos_of_ne_zero hwn)).1
        calc ((reqs0 :: rest).map (run_benchmark_method tc)).foldl
              (fun m w => min m w.min_latency) ⊤ ≤ w.min_latency :=
              foldl_min_le_mem _ ⊤ w hw
          _ ≤ WithTop.some w.max_latency := hwinv
          _ ≤ WithTop.some
              (((reqs0 :: rest).map (run_benchmark_method tc)).foldl
                (fun m w => max m w.max_latency) 0) :=
              some_le_some_of_le (foldl_max_ge_mem _ 0 w hw)
      · intro h0
        have hall : ∀ w ∈ (reqs0 :: rest).map (run_benchmark_method tc),
            w.nqueries = 0 := by
          have hsum : (((reqs0 :: rest).map (run_benchmark_method tc)).map
              (fun w => w.nqueries)).sum = 0 := by
            have : ((reqs0 :: rest).map (run_benchmark_method tc)).foldl
                (fun m w => m + w.nqueries) 0 =
                (((reqs0 :: rest).map (run_benchmark_method tc)).map
                  (fun w => w.nqueries)).sum := by
              rw [foldl_add_eq_sum, Nat.zero_add]
            rw [← this]
            exact h0
          intro w hw
          exact nat_sum_zero_all _ hsum w.nqueries
            (List.mem_map.mpr ⟨w, hw, rfl⟩)
        constructor
        · refine foldl_min_all_top _ ⊤ ?_
          intro w hw
          obtain ⟨reqs', _, rfl⟩ := List.mem_map.mp hw
          exact ((worker_WInv tc reqs').1 (hall _ hw)).1
        · refine foldl_max_all_zero _ 0 ?_
          intro w hw
          obtain ⟨reqs', _, rfl⟩ := List.mem_map.mp hw
          exact ((worker_WInv tc reqs').1 (hall _ hw)).2

/-- Claim C7 witness: a one-call worker has `min ≤ max`; a zero-call worker
holds the sentinels; a one-worker aggregate with a positive count has
`min ≤ max`. -/
theorem claim_C7_minmax_sentinels_witness :
    ((run_benchmark_method 0 [12345]).min_latency ≤
      WithTop.some (run_benchmark_method 0 [12345]).max_latency) ∧
    ((run_benchmark_method 0 []).min_latency = ⊤ ∧
      (run_benchmark_method 0 []).max_latency = 0) ∧
    ((Result.mk "b" "q" 1 5 (WithTop.some 1) 1 (some [1])).min_latency ≤
      WithTop.some
        (Result.mk "b" "q" 1 5 (WithTop.some 1) 1 (some [1])).max_latency) :=
  ⟨(claim_C7_minmax_sentinels.1 0 [12345]).1 (by decide),
   (claim_C7_minmax_sentinels.1 0 []).2 rfl,
   (claim_C7_minmax_sentinels.2 0 [[12345]] "b" "q" 5
      (Result.mk "b" "q" 1 5 (WithTop.some 1) 1 (some [1]))
      (by decide)).1 (by decide)⟩

/-- Claim C2: aggregation is order-insensitive.  Permutation part: for any
two permuted non-empty collections of results with equal-length histograms,
`agg_results` yields the same query count, min, max, and bit-identical
histogram buckets.  Regrouping (associativity) part: aggregating a
concatenation agrees with combining the two groups' aggregates by `+`,
`min`, `max` and elementwise histogram addition. -/
theorem claim_C2_agg_perm_regroup :
    (∀ (L : Nat) (rs₁ rs₂ : List RawWorkerResult) (b q : String) (d : Nat)
      (r₁ r₂ : Result),
      rs₁.Perm rs₂ → rs₁ ≠ [] →
      (∀ w ∈ rs₁, w.latency_stats.length = L) →
      agg_results rs₁ b q d = Except.ok r₁ →
      agg_results rs₂ b q d = Except.ok r₂ →
      r₁.nqueries = r₂.nqueries ∧ r₁.min_latency = r₂.min_latency ∧
        r₁.max_latency = r₂.max_latency ∧
        r₁.latency_stats = r₂.latency_stats) ∧
    (∀ (L : Nat) (xs ys : List RawWorkerResult) (b q : String) (d : Nat)
      (r rx ry : Result),
      xs ≠ [] → ys ≠ [] →
      (∀ w ∈ xs, w.latency_stats.length = L) →
      (∀ w ∈ ys, w.latency_stats.length = L) →
      agg_results (xs ++ ys) b q d = Except.ok r →
      agg_results xs b q d = Except.ok rx →
      agg_results ys b q d = Except.ok ry →
      r.nqueries = rx.nqueries + ry.nqueries ∧
        r.min_latency = min rx.min_latency ry.min_latency ∧
        r.max_latency = max rx.max_latency ry.max_latency ∧
        ∃ hx hy, rx.latency_stats = some hx ∧ ry.latency_stats = some hy ∧
          r.latency_stats = some (List.zipWith (· + ·) hx hy)) := by
  constructor
  · intro L rs₁ rs₂ b q d r₁ r₂ hperm hne hlen h1 h2
    have hne2 : rs₂ ≠ [] := by
      intro h
      subst h
      exact hne hperm.eq_nil
    have hlen2 : ∀ w ∈ rs₂, w.latency_stats.length = L :=
      fun w hw => hlen w (hperm.mem_iff.mpr hw)
    have hf1 := agg_ok_fields L rs₁ b q d r₁ hne hlen h1
    have hf2 := agg_ok_fields L rs₂ b q d r₂ hne2 hlen2 h2
    rw [hf1, hf2]
    refine ⟨?_, ?_, ?_, ?_⟩
    · exact foldl_perm _ (fun a x y => by omega) hperm 0
    · exact foldl_perm _
        (fun a x y => min_right_comm a x.min_latency y.min_latency) hperm ⊤
    · exact foldl_perm _
        (fun a x y => max_right_comm_nat a x.max_latency y.max_latency)
        hperm 0
    · show some (histAcc L rs₁) = some (histAcc L rs₂)
      rw [histAcc, histAcc, foldl_perm _
        (fun a x y => zip_right_comm a x.latency_stats y.latency_stats)
        hperm (List.replicate L 0)]
  · intro L xs ys b q d r rx ry hxne hyne hlx hly h hx hy
    have hlxy : ∀ w ∈ xs ++ ys, w.latency_stats.length = L := by
      intro w hw
      rcases List.mem_append.mp hw with h1 | h2
      · exact hlx w h1
      · exact hly w h2
    have hxyne : xs ++ ys ≠ [] := by
      cases xs with
      | nil => exact absurd rfl hxne
      | cons a l => simp
    have hf := agg_ok_fields L (xs ++ ys) b q d r hxyne hlxy h
    have hfx := agg_ok_fields L xs b q d rx hxne hlx hx
    have hfy := agg_ok_fields L ys b q d ry hyne hly hy
    rw [hf, hfx, hfy]
    refine ⟨foldl_add_append xs ys, foldl_min_append xs ys,
      foldl_max_append xs ys, histAcc L xs, histAcc L ys, rfl, rfl, ?_⟩
    show some (histAcc L (xs ++ ys)) = _
    rw [histAcc_append L xs ys hlx]

/-- Claim C2 witness: two concrete worker results aggregated in both orders
give the same fields, and aggregating their concatenation agrees with
combining the two singleton aggregates. -/
theorem claim_C2_agg_perm_regroup_witness :
    (exR.nqueries = exR.nqueries ∧ exR.min_latency = exR.min_latency ∧
      exR.max_latency = exR.max_latency ∧
      exR.latency_stats = exR.latency_stats) ∧
    (exR.nqueries = exRx.nqueries + exRy.nqueries ∧
      exR.min_latency = min exRx.min_latency exRy.min_latency ∧
      exR.max_latency = max exRx.max_latency exRy.max_latency ∧
      ∃ hx hy, exRx.latency_stats = some hx ∧
        exRy.latency_stats = some hy ∧
        exR.latency_stats = some (List.zipWith (· + ·) hx hy)) :=
  ⟨claim_C2_agg_perm_regroup.1 1 [exW1, exW2] [exW2, exW1] "b" "q" 5
      exR exR (List.Perm.swap exW2 exW1 []) (by decide) (by decide)
      (by decide) (by decide),
   claim_C2_agg_perm_regroup.2 1 [exW1] [exW2] "b" "q" 5 exR exRx exRy
      (by decide) (by decide) (by decide) (by decide) (by decide)
      (by decide) (by decide)⟩

/-- Claim C10 witness: the empty aggregation at concrete arguments. -/
theorem claim_C10_empty_aggregation_witness :
    agg_results [] "x" "y" 4 = Except.ok (Result.mk "x" "y" 0 4 ⊤ 0 none) :=
  claim_C10_empty_aggregation "x" "y" 4
